import Mathlib

/-!
Verification of `autokeras/keras_layers.py` (tokenization pipeline, einsum
equation builders, masked softmax, embedding lookup).

Shallow embedding conventions:
* Python strings are modelled as `String` / `List Char`; the whitespace set
  used by `str.strip()` / `str.split()` is modelled by the ASCII whitespace
  characters (the only ones the relevant code paths see).
* Python dicts built by `vocab[token] = index` are modelled as lookup
  functions in which a later assignment overrides an earlier one.
* Floating point scores are modelled over `ℚ` (the claims under check are
  exact arithmetic identities, not rounding statements).
* A Python function that can raise (IndexError on alphabet overflow) is
  modelled with `Option`, `none` standing for the raised error.
-/

namespace AK

/-- ASCII whitespace, the character set Python's `str.strip()`/`str.split()`
act on for the inputs of this file. -/
def isPySpace (c : Char) : Bool :=
  c = ' ' || c = '\t' || c = '\n' || c = '\r' || c = '\x0b' || c = '\x0c'

/-- Python `str.strip()` on a character list: drop whitespace from both ends. -/
def pyStripChars (l : List Char) : List Char :=
  ((l.dropWhile isPySpace).reverse.dropWhile isPySpace).reverse

/-- Python `str.strip()` on a `String` (as used by `load_vocab`). -/
def pyStrip (s : String) : String :=
  String.mk (pyStripChars s.data)

/-- Python `str.split()` (no separator): maximal runs of non-whitespace.
`cur` accumulates the current run in reverse. -/
def pySplitAux : List Char → List Char → List (List Char)
  | [], cur => if cur = [] then [] else [cur.reverse]
  | c :: cs, cur =>
    if isPySpace c then
      if cur = [] then pySplitAux cs [] else cur.reverse :: pySplitAux cs []
    else
      pySplitAux cs (c :: cur)

/-- Python `str.split()` with no separator. -/
def pySplit (l : List Char) : List (List Char) :=
  pySplitAux l []

/-- `whitespace_tokenize` (keras_layers.py:1717): strip, return `[]` when the
result is empty, otherwise split on whitespace runs. -/
def whitespace_tokenize (text : List Char) : List (List Char) :=
  let t := pyStripChars text
  if t = [] then [] else pySplit t

/-! ### load_vocab (keras_layers.py:1466) -/

/-- The lookup function of the dict built by the `load_vocab` loop starting at
counter value `index`: each line is stripped (`token = token.strip()`) and
bound to the running index; a later binding of the same key overrides an
earlier one (Python dict assignment), hence the recursive call on the rest of
the lines takes priority. -/
def load_vocab_from (index : Nat) : List String → String → Option Nat
  | [], _ => none
  | line :: rest, s =>
    match load_vocab_from (index + 1) rest s with
    | some i => some i
    | none => if pyStrip line = s then some index else none

/-- `load_vocab` (keras_layers.py:1466): reads the vocabulary lines
top-to-bottom, strips each line and assigns the running index, modelled as the
resulting lookup function. -/
def load_vocab (lines : List String) : String → Option Nat :=
  load_vocab_from 0 lines

/-! ### BertTokenizer.call mask (keras_layers.py:140) -/

/-- The padding mask computed by `BertTokenizer.call`
(keras_layers.py:145): `input_mask = tf.zeros_like(input_word_ids)`. -/
def bertTokenizer_call_mask (input_word_ids : List (List Nat)) : List (List Nat) :=
  input_word_ids.map (fun row => row.map (fun _ => 0))

/-! ### WordpieceTokenizer.tokenize (keras_layers.py:1639) -/

/-- The inner `while start < end` loop of `WordpieceTokenizer.tokenize`:
starting from `end` and shrinking by one, find the longest substring
`chars[start:end]` (with `"##"` prepended when `start > 0`) that is in the
vocabulary; returns the matched sub-token and the end position, or `none`
when no end position matches (`cur_substr is None`). -/
def findFrom (vocab : List (List Char)) (chars : List Char) (start : Nat) :
    Nat → Option (List Char × Nat)
  | 0 => none
  | e + 1 =>
    if start ≤ e then
      let substr0 := (chars.drop start).take (e + 1 - start)
      let substr := if 0 < start then ['#', '#'] ++ substr0 else substr0
      if vocab.contains substr then some (substr, e + 1)
      else findFrom vocab chars start e
    else none

/-- The outer `while start < len(chars)` loop of
`WordpieceTokenizer.tokenize`, fuelled: each iteration matches one sub-token
via `findFrom` and advances `start` to the matched end; `none` is the
`is_bad` outcome. Since every match strictly increases `start`, fuel
`chars.length + 1` (used by `greedy` below) is never exhausted. -/
def greedyAux (vocab : List (List Char)) (chars : List Char) :
    Nat → Nat → Option (List (List Char))
  | 0, _ => none
  | fuel + 1, start =>
    if start < chars.length then
      match findFrom vocab chars start chars.length with
      | none => none
      | some (s, e) =>
        match greedyAux vocab chars fuel e with
        | none => none
        | some rest => some (s :: rest)
    else some []

/-- The greedy longest-match segmentation of one token
(`WordpieceTokenizer.tokenize`, keras_layers.py:1666-1684): `some sub_tokens`
on success, `none` for the `is_bad` fallback. -/
def greedy (vocab : List (List Char)) (chars : List Char) : Option (List (List Char)) :=
  greedyAux vocab chars (chars.length + 1) 0

/-- The per-token body of `WordpieceTokenizer.tokenize`: tokens longer than
`max_input_chars_per_word` map to `[unk_token]`, a failed greedy segmentation
(`is_bad`) maps to `[unk_token]`, otherwise the sub-tokens are emitted. -/
def wordpiece_word (vocab : List (List Char)) (unk_token : List Char)
    (max_input_chars_per_word : Nat) (token : List Char) : List (List Char) :=
  if max_input_chars_per_word < token.length then [unk_token]
  else
    match greedy vocab token with
    | none => [unk_token]
    | some sub_tokens => sub_tokens

/-- `WordpieceTokenizer.tokenize` (keras_layers.py:1639): whitespace-split the
input and concatenate the per-token outputs. -/
def wordpiece_tokenize (vocab : List (List Char)) (unk_token : List Char)
    (max_input_chars_per_word : Nat) (text : List Char) : List (List Char) :=
  (whitespace_tokenize text).flatMap
    (wordpiece_word vocab unk_token max_input_chars_per_word)

/-! ### Einsum equation builders (keras_layers.py:1201 and keras_layers.py:1302) -/

/-- The 13-letter symbol alphabet `_CHR_IDX` of
`DenseEinsum._build_einsum_string` (keras_layers.py:1202). -/
def CHR_IDX13 : List Char :=
  ['a', 'b', 'c', 'd', 'e', 'f', 'g', 'h', 'i', 'j', 'k', 'l', 'm']

/-- The symbol alphabet `string.ascii_lowercase` of `_build_proj_equation`
(keras_layers.py:1306). -/
def ascii_lowercase : List Char :=
  ['a', 'b', 'c', 'd', 'e', 'f', 'g', 'h', 'i', 'j', 'k', 'l', 'm',
   'n', 'o', 'p', 'q', 'r', 's', 't', 'u', 'v', 'w', 'x', 'y', 'z']

/-- One equation-builder loop `for i in range(n): char = alphabet[i + offset]`:
the characters appended by the loop (the same block is appended to each of the
loop's target strings), or `none` when an index falls outside the alphabet
(Python IndexError). -/
def blockChars (alphabet : List Char) : Nat → Nat → Option (List Char)
  | _, 0 => some []
  | offset, n + 1 =>
    match alphabet.get? offset with
    | none => none
    | some c => (blockChars alphabet (offset + 1) n).map (fun l => c :: l)

/-- `_build_proj_equation` (keras_layers.py:1302): the three loops append the
free block to `input_str`/`output_str`, the bound block to
`input_str`/`kernel_str`, and the output block to
`kernel_str`/`output_str`/`bias_axes`, with `letter_offset` advanced after
each loop. Result: (input_str, kernel_str, output_str, bias_axes); `none`
models the IndexError on alphabet overflow. -/
def build_proj_equation (free_dims bound_dims output_dims : Nat) :
    Option (List Char × List Char × List Char × List Char) :=
  match blockChars ascii_lowercase 0 free_dims with
  | none => none
  | some freeB =>
    match blockChars ascii_lowercase free_dims bound_dims with
    | none => none
    | some boundB =>
      match blockChars ascii_lowercase (free_dims + bound_dims) output_dims with
      | none => none
      | some outB => some (freeB ++ boundB, boundB ++ outB, freeB ++ outB, outB)

/-- `DenseEinsum._build_einsum_string` (keras_layers.py:1201): same loop
structure over the 13-letter alphabet, returning the combined equation string
`input_str + "," + kernel_str + "->" + output_str`. -/
def build_einsum_string (free_input_dims bound_dims output_dims : Nat) :
    Option (List Char) :=
  match blockChars CHR_IDX13 0 free_input_dims with
  | none => none
  | some freeB =>
    match blockChars CHR_IDX13 free_input_dims bound_dims with
    | none => none
    | some boundB =>
      match blockChars CHR_IDX13 (free_input_dims + bound_dims) output_dims with
      | none => none
      | some outB =>
        some ((freeB ++ boundB) ++ [','] ++ (boundB ++ outB) ++ ['-', '>']
          ++ (freeB ++ outB))

/-! ### MaskedSoftmax (keras_layers.py:1395)

Tensors are modelled as value functions on multi-indices; a tensor of rank r
is read at an index list of length r.  `tf.expand_dims(t, axis)` inserts a
singleton axis at `axis`: reading the result at `idx` reads `t` at `idx` with
coordinate `axis` removed (which is also exactly how the inserted singleton
axis broadcasts against larger dimensions in the subsequent arithmetic). -/

/-- `tf.expand_dims` on an index-function tensor. -/
def expand_dims (t : List Nat → ℚ) (axis : Nat) : List Nat → ℚ :=
  fun idx => t (idx.eraseIdx axis)

/-- The mask expansion loop of `MaskedSoftmax.call` (keras_layers.py:1414):
`for _ in range(rank_diff): mask = tf.expand_dims(mask, axis)`. -/
def expandMask (mask : List Nat → ℚ) (axis : Nat) : Nat → (List Nat → ℚ)
  | 0 => mask
  | n + 1 => expand_dims (expandMask mask axis n) axis

/-- The pre-normalization transform of `MaskedSoftmax.call`
(keras_layers.py:1420-1424): `adder = (1.0 - mask) * -10000.0;
scores += adder`, with the mask first expanded `rank_diff` times. -/
def masked_softmax_pre (scores mask : List Nat → ℚ) (axis rank_diff : Nat) :
    List Nat → ℚ :=
  fun idx => scores idx + (1 - expandMask mask axis rank_diff idx) * (-10000)

/-! ### OnDeviceEmbedding.call (keras_layers.py:487) -/

/-- One output entry of `tf.matmul(tf.one_hot(id, vocab_size), embeddings)`:
`tf.one_hot` puts 1 at position `id` and 0 elsewhere. -/
def one_hot_matmul (vocab_size : Nat) (embeddings : Nat → Nat → ℚ)
    (id k : Nat) : ℚ :=
  ∑ j ∈ Finset.range vocab_size, (if j = id then (1 : ℚ) else 0) * embeddings j k

/-- `OnDeviceEmbedding.call` (keras_layers.py:487) on the flattened id list:
the one-hot branch multiplies a one-hot row by the embedding table, the
gather branch reads the table row directly; each output row lists the
`embedding_width` channels. -/
def OnDeviceEmbedding_call (use_one_hot : Bool) (vocab_size embedding_width : Nat)
    (embeddings : Nat → Nat → ℚ) (flat_inputs : List Nat) : List (List ℚ) :=
  if use_one_hot then
    flat_inputs.map (fun id =>
      (List.range embedding_width).map (one_hot_matmul vocab_size embeddings id))
  else
    flat_inputs.map (fun id =>
      (List.range embedding_width).map (fun k => embeddings id k))

/-! ### BertTokenizer encoding (keras_layers.py:151 and keras_layers.py:173) -/

/-- `BertTokenizer.encode_sentence` (keras_layers.py:151) after tokenization:
append `"[SEP]"` to the sub-word tokens and convert every token to its id
(`convert_tokens_to_ids`). -/
def encode_sentence (tokToId : String → Nat) (tokens : List String) : List Nat :=
  (tokens ++ ["[SEP]"]).map tokToId

/-- One row of `BertTokenizer.bert_encode` (keras_layers.py:173): prepend the
`"[CLS]"` id, then truncate to the first `max_sequence_length` ids when the
row is longer than that. -/
def bert_encode_row (tokToId : String → Nat) (max_sequence_length : Nat)
    (tokens : List String) : List Nat :=
  let sentence := encode_sentence tokToId tokens
  let row := tokToId "[CLS]" :: sentence
  if max_sequence_length < row.length then row.take max_sequence_length else row

/-! ### Properties of the WordPiece greedy loop -/

/-- Shape of a successful inner-loop search: the matched end position lies in
`(start, e]` and the matched sub-token is the corresponding slice of the
token, with the continuation marker prepended at non-initial positions. -/
theorem findFrom_some (vocab : List (List Char)) (chars : List Char) (start : Nat) :
    ∀ (e : Nat) (s : List Char) (e' : Nat),
      findFrom vocab chars start e = some (s, e') →
      start < e' ∧ e' ≤ e ∧
        s = (if 0 < start then ['#', '#'] ++ (chars.drop start).take (e' - start)
             else (chars.drop start).take (e' - start)) := by
  intro e
  induction e with
  | zero => intro s e' h; simp [findFrom] at h
  | succ e ih =>
    intro s e' h
    simp only [findFrom] at h
    split at h
    next hse =>
      split at h
      next h0 =>
        split at h
        next hv =>
          simp only [Option.some.injEq, Prod.mk.injEq] at h
          obtain ⟨hs, he⟩ := h
          subst he
          rw [if_pos h0]
          exact ⟨Nat.lt_succ_of_le hse, Nat.le_refl _, hs.symm⟩
        next hv =>
          obtain ⟨a1, a2, a3⟩ := ih s e' h
          exact ⟨a1, Nat.le_succ_of_le a2, a3⟩
      next h0 =>
        split at h
        next hv =>
          simp only [Option.some.injEq, Prod.mk.injEq] at h
          obtain ⟨hs, he⟩ := h
          subst he
          rw [if_neg h0]
          exact ⟨Nat.lt_succ_of_le hse, Nat.le_refl _, hs.symm⟩
        next hv =>
          obtain ⟨a1, a2, a3⟩ := ih s e' h
          exact ⟨a1, Nat.le_succ_of_le a2, a3⟩
    next hse =>
      exact absurd h (by simp)

/-- Invariant of the outer greedy loop at a non-initial start position: every
produced sub-token carries the continuation marker, stripping the marker from
each sub-token and concatenating reconstructs the unconsumed remainder of the
token, and a non-empty remainder yields at least one sub-token. -/
theorem greedyAux_spec (vocab : List (List Char)) (chars : List Char) :
    ∀ (fuel start : Nat) (subs : List (List Char)),
      0 < start →
      greedyAux vocab chars fuel start = some subs →
      (∀ s ∈ subs, s.take 2 = ['#', '#']) ∧
      (subs.map (fun s => s.drop 2)).flatten = chars.drop start ∧
      (start < chars.length → subs ≠ []) := by
  intro fuel
  induction fuel with
  | zero => intro start subs _ h; simp [greedyAux] at h
  | succ fuel ih =>
    intro start subs hpos h
    simp only [greedyAux] at h
    split at h
    next hlt =>
      split at h
      next hf => exact absurd h (by simp)
      next s e hf =>
        obtain ⟨hb1, hb2, hb3⟩ := findFrom_some vocab chars start chars.length s e hf
        rw [if_pos hpos] at hb3
        split at h
        next hg => exact absurd h (by simp)
        next rest hg =>
          simp only [Option.some.injEq] at h
          subst h
          obtain ⟨ih1, ih2, _⟩ := ih e rest (by omega) hg
          refine ⟨?_, ?_, ?_⟩
          · intro t ht
            rcases List.mem_cons.mp ht with rfl | htr
            · rw [hb3]; rfl
            · exact ih1 t htr
          · simp only [List.map_cons, List.flatten_cons]
            rw [ih2, hb3]
            have hdrop2 : (['#', '#'] ++ (chars.drop start).take (e - start)).drop 2
                = (chars.drop start).take (e - start) := rfl
            rw [hdrop2]
            have hde : chars.drop e = (chars.drop start).drop (e - start) := by
              rw [List.drop_drop]; congr 1; omega
            rw [hde, List.take_append_drop]
          · intro _; simp
    next hlt =>
      simp only [Option.some.injEq] at h
      subst h
      refine ⟨by simp, ?_, fun hc => absurd hc hlt⟩
      rw [List.drop_eq_nil_of_le (Nat.le_of_not_lt hlt)]
      simp

/-- Claim C10: for every non-empty input token on which WordPiece segmentation
succeeds (no unknown-token fallback), the produced sub-token list is
non-empty, every non-initial sub-token carries the "##" continuation marker,
and concatenating the initial sub-token with the non-initial sub-tokens after
stripping the marker from each of them reconstructs the original token
exactly. -/
theorem C10_wordpiece_reconstruction (vocab : List (List Char)) (chars : List Char)
    (subs : List (List Char)) (hne : chars ≠ [])
    (h : greedy vocab chars = some subs) :
    subs ≠ [] ∧
    (∀ i (hi : i < subs.length), 0 < i → (subs.get ⟨i, hi⟩).take 2 = ['#', '#']) ∧
    subs.headI ++ ((subs.tail).map (fun s => s.drop 2)).flatten = chars := by
  have hlen : 0 < chars.length := List.length_pos.mpr hne
  unfold greedy at h
  simp only [greedyAux] at h
  rw [if_pos hlen] at h
  split at h
  next hf => exact absurd h (by simp)
  next s e hf =>
    obtain ⟨hb1, hb2, hb3⟩ := findFrom_some vocab chars 0 chars.length s e hf
    rw [if_neg (lt_irrefl 0)] at hb3
    split at h
    next hg => exact absurd h (by simp)
    next rest hg =>
      simp only [Option.some.injEq] at h
      subst h
      obtain ⟨ih1, ih2, _⟩ := greedyAux_spec vocab chars chars.length e rest hb1 hg
      refine ⟨by simp, ?_, ?_⟩
      · intro i hi h0
        cases i with
        | zero => omega
        | succ j =>
          have hj : j < rest.length := by simpa using hi
          have hget : (s :: rest).get ⟨j + 1, hi⟩ = rest.get ⟨j, hj⟩ := rfl
          rw [hget]
          exact ih1 _ (rest.get_mem _ _)
      · simp only [List.headI, List.tail_cons, List.map_cons]
        rw [ih2, hb3]
        simp only [List.drop_zero, Nat.sub_zero]
        exact List.take_append_drop e chars

/-- Concrete instantiation of C10 on the token "unaffable" with vocabulary
{"un", "##aff", "##able"}. -/
theorem C10_wordpiece_reconstruction_witness :
    (["un".data, "##aff".data, "##able".data] : List (List Char)) ≠ [] ∧
    (∀ i (hi : i < (["un".data, "##aff".data, "##able".data] : List (List Char)).length),
      0 < i →
      ((["un".data, "##aff".data, "##able".data] : List (List Char)).get ⟨i, hi⟩).take 2
        = ['#', '#']) ∧
    (["un".data, "##aff".data, "##able".data] : List (List Char)).headI ++
      (((["un".data, "##aff".data, "##able".data] : List (List Char)).tail).map
        (fun s => s.drop 2)).flatten = "unaffable".data :=
  C10_wordpiece_reconstruction ["un".data, "##aff".data, "##able".data] "unaffable".data
    ["un".data, "##aff".data, "##able".data] (by decide) (by decide)

/-- Claim C6: tokenizing the single word "unaffable" against a vocabulary
containing "un", "##aff" and "##able" yields exactly the sub-word sequence
["un", "##aff", "##able"]. -/
theorem C6_unaffable :
    wordpiece_tokenize ["un".data, "##aff".data, "##able".data] "[UNK]".data 400
      "unaffable".data = ["un".data, "##aff".data, "##able".data] := by decide

/-- Claim C7: a token longer than the configured maximum maps to the single
unknown-token placeholder, and a token on which the greedy segmentation finds
no vocabulary match at some cursor position also maps to the single
unknown-token placeholder (all partial sub-tokens discarded); both outcomes
are ordinary return values, not errors. -/
theorem C7_unknown_fallback (vocab : List (List Char)) (unk_token : List Char)
    (max_input_chars_per_word : Nat) (token : List Char) :
    (max_input_chars_per_word < token.length →
      wordpiece_word vocab unk_token max_input_chars_per_word token = [unk_token]) ∧
    (greedy vocab token = none →
      wordpiece_word vocab unk_token max_input_chars_per_word token = [unk_token]) := by
  constructor
  · intro h
    simp [wordpiece_word, if_pos h]
  · intro h
    unfold wordpiece_word
    split
    · rfl
    · rw [h]

/-- A 401-character token, exceeding the default WordPiece limit of 400. -/
def longToken : List Char := List.replicate 401 'a'

set_option maxRecDepth 4096 in
/-- Concrete instantiation of C7: an over-length token and an
out-of-vocabulary token both yield the single unknown-token placeholder. -/
theorem C7_unknown_fallback_witness :
    wordpiece_word ["un".data] "[UNK]".data 400 longToken = ["[UNK]".data] ∧
    wordpiece_word ["un".data] "[UNK]".data 400 "xyz".data = ["[UNK]".data] :=
  ⟨(C7_unknown_fallback _ _ _ _).1 (by simp [longToken]),
   (C7_unknown_fallback _ _ _ _).2 (by decide)⟩

/-! ### Properties of load_vocab -/

/-- The load_vocab lookup misses exactly when no line strips to the key. -/
theorem load_vocab_from_eq_none (s : String) :
    ∀ (lines : List String) (idx : Nat),
      load_vocab_from idx lines s = none ↔ ∀ t ∈ lines, pyStrip t ≠ s := by
  intro lines
  induction lines with
  | nil => intro idx; simp [load_vocab_from]
  | cons line rest ih =>
    intro idx
    cases hr : load_vocab_from (idx + 1) rest s with
    | some i' =>
      simp only [load_vocab_from, hr]
      constructor
      · intro h; exact absurd h (by simp)
      · intro hall
        exfalso
        have hnone : load_vocab_from (idx + 1) rest s = none :=
          (ih (idx + 1)).mpr (fun t ht => hall t (List.mem_cons_of_mem _ ht))
        rw [hnone] at hr
        exact Option.noConfusion hr
    | none =>
      simp only [load_vocab_from, hr]
      have hrest : ∀ t ∈ rest, pyStrip t ≠ s := (ih (idx + 1)).mp hr
      constructor
      · intro h t ht
        rcases List.mem_cons.mp ht with rfl | htr
        · intro hs
          rw [if_pos hs] at h
          exact Option.noConfusion h
        · exact hrest t htr
      · intro hall
        rw [if_neg (hall line (List.mem_cons_self _ _))]

/-- The load_vocab lookup returns exactly the running index of the last line
that strips to the key. -/
theorem load_vocab_from_eq_some (s : String) :
    ∀ (lines : List String) (idx i : Nat),
      load_vocab_from idx lines s = some i ↔
        ∃ (j : Nat) (hj : j < lines.length), idx + j = i ∧
          pyStrip (lines.get ⟨j, hj⟩) = s ∧
          ∀ k (hk : k < lines.length), j < k → pyStrip (lines.get ⟨k, hk⟩) ≠ s := by
  intro lines
  induction lines with
  | nil => intro idx i; simp [load_vocab_from]
  | cons line rest ih =>
    intro idx i
    cases hr : load_vocab_from (idx + 1) rest s with
    | some i' =>
      simp only [load_vocab_from, hr]
      obtain ⟨j', hj', hidx', hstrip', hmax'⟩ := (ih (idx + 1) i').mp hr
      constructor
      · intro h
        have hii : i' = i := Option.some.inj h
        subst hii
        refine ⟨j' + 1, Nat.succ_lt_succ hj', by omega, hstrip', ?_⟩
        intro k hk hgt
        cases k with
        | zero => omega
        | succ k' =>
          have hk' : k' < rest.length := by simpa using hk
          exact hmax' k' hk' (by omega)
      · rintro ⟨j, hj, hidx, hstrip, hmax⟩
        cases j with
        | zero =>
          exfalso
          exact hmax (j' + 1) (Nat.succ_lt_succ hj') (Nat.succ_pos _) hstrip'
        | succ j'' =>
          have hj'' : j'' < rest.length := by simpa using hj
          have hstrip'' : pyStrip (rest.get ⟨j'', hj''⟩) = s := hstrip
          have hmax'' : ∀ k (hk : k < rest.length), j'' < k →
              pyStrip (rest.get ⟨k, hk⟩) ≠ s := by
            intro k hk hgt
            exact hmax (k + 1) (Nat.succ_lt_succ hk) (by omega)
          have hjj : j'' = j' := by
            by_contra hne
            rcases Nat.lt_or_ge j'' j' with hlt | hge
            · exact hmax'' j' hj' hlt hstrip'
            · exact hmax' j'' hj'' (by omega) hstrip''
          subst hjj
          have : i' = i := by omega
          rw [this]
    | none =>
      simp only [load_vocab_from, hr]
      have hrest : ∀ t ∈ rest, pyStrip t ≠ s :=
        (load_vocab_from_eq_none s rest (idx + 1)).mp hr
      by_cases hline : pyStrip line = s
      · rw [if_pos hline]
        constructor
        · intro h
          have hii : idx = i := Option.some.inj h
          subst hii
          refine ⟨0, Nat.succ_pos _, by omega, hline, ?_⟩
          intro k hk hgt
          cases k with
          | zero => omega
          | succ k' =>
            have hk' : k' < rest.length := by simpa using hk
            exact hrest _ (rest.get_mem _ _)
        · rintro ⟨j, hj, hidx, hstrip, hmax⟩
          cases j with
          | zero => rw [show i = idx by omega]
          | succ j'' =>
            exfalso
            have hj'' : j'' < rest.length := by simpa using hj
            exact hrest _ (rest.get_mem _ _) hstrip
      · rw [if_neg hline]
        constructor
        · intro h; exact absurd h (by simp)
        · rintro ⟨j, hj, hidx, hstrip, hmax⟩
          exfalso
          cases j with
          | zero => exact hline hstrip
          | succ j'' =>
            have hj'' : j'' < rest.length := by simpa using hj
            exact hrest _ (rest.get_mem _ _) hstrip

/-- Claim C2 fails on the code at a concrete vocabulary source: `load_vocab`
strips leading whitespace too (the line " z" is stored as "z", so the
claimed token " z" is absent), and a duplicated line is assigned the index of
its last occurrence (lines ["a", "a"] map "a" to 1, not to the first
occurrence 0, leaving id 0 unassigned). -/
theorem C2_counterexample :
    load_vocab ["xy", " z"] " z" = none ∧
    load_vocab ["xy", " z"] "z" = some 1 ∧
    load_vocab ["a", "a"] "a" = some 1 := by decide

/-- Claim C2 as amended: each line's token is the line's text stripped of
leading and trailing whitespace; a string is assigned id i exactly when line
i strips to it and no later line does (last occurrence); and when the
stripped lines are pairwise distinct, line i's stripped token is assigned id
i for every i, so the assigned ids are contiguous starting at 0 with no
duplicate strings. -/
theorem C2_last_occurrence (lines : List String) (s : String) (i : Nat) :
    (load_vocab lines s = some i ↔
      ∃ (hi : i < lines.length), pyStrip (lines.get ⟨i, hi⟩) = s ∧
        ∀ k (hk : k < lines.length), i < k → pyStrip (lines.get ⟨k, hk⟩) ≠ s) ∧
    ((lines.map pyStrip).Nodup → ∀ j (hj : j < lines.length),
      load_vocab lines (pyStrip (lines.get ⟨j, hj⟩)) = some j) := by
  constructor
  · rw [load_vocab, load_vocab_from_eq_some]
    constructor
    · rintro ⟨j, hj, hidx, hstrip, hmax⟩
      have hji : j = i := by omega
      subst hji
      exact ⟨hj, hstrip, hmax⟩
    · rintro ⟨hi, hstrip, hmax⟩
      exact ⟨i, hi, by omega, hstrip, hmax⟩
  · intro hnd j hj
    rw [load_vocab, load_vocab_from_eq_some]
    refine ⟨j, hj, by omega, rfl, ?_⟩
    intro k hk hgt hstrip
    have hpw := (List.pairwise_iff_get.mp hnd)
      ⟨j, by simpa using hj⟩ ⟨k, by simpa using hk⟩ hgt
    apply hpw
    simp only [List.get_map]
    exact hstrip.symm

/-- Concrete instantiation of C2 as amended: with the distinct lines
["x", "y"], line 0's stripped token is assigned id 0. -/
theorem C2_last_occurrence_witness : load_vocab ["x", "y"] "x" = some 0 := by
  have h := (C2_last_occurrence ["x", "y"] "x" 0).2 (by decide) 0 (by decide)
  simpa using h

/-- Claim C1 evaluated at the failing input: for a batch of one sentence whose
encoded ids are [101, 7592, 102] (three real tokens, no padding), the mask
produced by `BertTokenizer.call` is all zeros, although all three positions
are real (non-padding) source positions. -/
theorem C1_mask_all_zeros :
    bertTokenizer_call_mask [[101, 7592, 102]] = [[0, 0, 0]] := by decide

/-! ### Properties of the equation builders -/

/-- The alphabet slice of length `n` starting at `offset` (the symbols one
successful builder loop assigns). -/
def symBlock (alphabet : List Char) (offset n : Nat) : List Char :=
  (alphabet.drop offset).take n

/-- Shape of a successful equation-builder loop: it succeeds only when its
index range fits inside the alphabet, and it appends exactly the
corresponding alphabet slice. -/
theorem blockChars_some (alphabet : List Char) :
    ∀ (n offset : Nat) (l : List Char),
      blockChars alphabet offset n = some l →
      (0 < n → offset + n ≤ alphabet.length) ∧ l = symBlock alphabet offset n := by
  intro n
  induction n with
  | zero =>
    intro offset l h
    simp only [blockChars, Option.some.injEq] at h
    subst h
    exact ⟨by omega, by simp [symBlock]⟩
  | succ n ih =>
    intro offset l h
    simp only [blockChars] at h
    cases hg : alphabet.get? offset with
    | none => rw [hg] at h; exact absurd h (by simp)
    | some c =>
      rw [hg] at h
      rcases Option.map_eq_some'.mp h with ⟨l', hl', rfl⟩
      obtain ⟨hbound, hshape⟩ := ih (offset + 1) l' hl'
      obtain ⟨hoff, hcc⟩ := List.get?_eq_some.mp hg
      refine ⟨fun _ => ?_, ?_⟩
      · rcases Nat.eq_zero_or_pos n with rfl | hn
        · omega
        · have := hbound hn; omega
      · have hdropc : alphabet.drop offset
            = alphabet.get ⟨offset, hoff⟩ :: alphabet.drop (offset + 1) := by
          rw [List.drop_eq_getElem_cons hoff]
          rfl
        simp only [symBlock] at hshape ⊢
        rw [hdropc, List.take_succ_cons, hcc, hshape]

/-- The three symbol blocks in order concatenate to an alphabet prefix. -/
theorem blocks_eq_take (alphabet : List Char) (f b o : Nat) :
    symBlock alphabet 0 f ++ (symBlock alphabet f b ++ symBlock alphabet (f + b) o)
      = alphabet.take (f + b + o) := by
  simp only [symBlock, List.drop_zero]
  rw [show f + b + o = f + (b + o) by omega, List.take_add, List.take_add,
    List.drop_drop]

/-- Length of a block that fits in the alphabet. -/
theorem symBlock_length (alphabet : List Char) (offset n : Nat)
    (h : 0 < n → offset + n ≤ alphabet.length) :
    (symBlock alphabet offset n).length = n := by
  rcases Nat.eq_zero_or_pos n with rfl | hn
  · simp [symBlock]
  · have := h hn
    simp only [symBlock, List.length_take, List.length_drop]
    omega

/-- Every bound/output symbol appears in exactly one of the input or output
subscript strings, given a strictly increasing alphabet. -/
theorem block_exclusive (alphabet : List Char) (hpw : alphabet.Pairwise (· < ·))
    (f b o : Nat) :
    ∀ c ∈ symBlock alphabet f b ++ symBlock alphabet (f + b) o,
      (c ∈ symBlock alphabet 0 f ++ symBlock alphabet f b ∧
       c ∉ symBlock alphabet 0 f ++ symBlock alphabet (f + b) o) ∨
      (c ∈ symBlock alphabet 0 f ++ symBlock alphabet (f + b) o ∧
       c ∉ symBlock alphabet 0 f ++ symBlock alphabet f b) := by
  have hnd : (symBlock alphabet 0 f ++
      (symBlock alphabet f b ++ symBlock alphabet (f + b) o)).Nodup := by
    rw [blocks_eq_take]
    exact ((hpw.sublist (List.take_sublist _ _)).imp fun h => ne_of_lt h)
  rw [List.nodup_append] at hnd
  obtain ⟨hndA, hndBC, hdisjA⟩ := hnd
  rw [List.nodup_append] at hndBC
  obtain ⟨hndB, hndC, hdisjBC⟩ := hndBC
  intro c hc
  rcases List.mem_append.mp hc with hcB | hcC
  · left
    refine ⟨List.mem_append_right _ hcB, ?_⟩
    intro hcAC
    rcases List.mem_append.mp hcAC with hcA | hcC
    · exact hdisjA hcA (List.mem_append_left _ hcB)
    · exact hdisjBC hcB hcC
  · right
    refine ⟨List.mem_append_right _ hcC, ?_⟩
    intro hcAB
    rcases List.mem_append.mp hcAB with hcA | hcB
    · exact hdisjA hcA (List.mem_append_right _ hcC)
    · exact hdisjBC hcB hcC

/-- Claim C3: whenever the equation builders succeed, input-subscripts are
the free block followed by the bound block, kernel-subscripts the bound block
followed by the output block, output-subscripts the free block followed by
the output block; the symbols are assigned in strictly increasing alphabet
order (free block, then bound block, then output block); the
output-subscripts have length free_dims + output_dims; and every kernel
symbol appears in exactly one of the input or output subscripts. -/
theorem C3_equation_blocks :
    (∀ f b o inp ker out bias,
      build_proj_equation f b o = some (inp, ker, out, bias) →
      inp = symBlock ascii_lowercase 0 f ++ symBlock ascii_lowercase f b ∧
      ker = symBlock ascii_lowercase f b ++ symBlock ascii_lowercase (f + b) o ∧
      out = symBlock ascii_lowercase 0 f ++ symBlock ascii_lowercase (f + b) o ∧
      (symBlock ascii_lowercase 0 f ++ (symBlock ascii_lowercase f b ++
        symBlock ascii_lowercase (f + b) o)).Pairwise (· < ·) ∧
      out.length = f + o ∧
      ∀ c ∈ ker, (c ∈ inp ∧ c ∉ out) ∨ (c ∈ out ∧ c ∉ inp)) ∧
    (∀ f b o eq, build_einsum_string f b o = some eq →
      eq = (symBlock CHR_IDX13 0 f ++ symBlock CHR_IDX13 f b) ++ [','] ++
           (symBlock CHR_IDX13 f b ++ symBlock CHR_IDX13 (f + b) o) ++ ['-', '>'] ++
           (symBlock CHR_IDX13 0 f ++ symBlock CHR_IDX13 (f + b) o) ∧
      (symBlock CHR_IDX13 0 f ++ (symBlock CHR_IDX13 f b ++
        symBlock CHR_IDX13 (f + b) o)).Pairwise (· < ·) ∧
      (symBlock CHR_IDX13 0 f ++ symBlock CHR_IDX13 (f + b) o).length = f + o ∧
      ∀ c ∈ symBlock CHR_IDX13 f b ++ symBlock CHR_IDX13 (f + b) o,
        (c ∈ symBlock CHR_IDX13 0 f ++ symBlock CHR_IDX13 f b ∧
         c ∉ symBlock CHR_IDX13 0 f ++ symBlock CHR_IDX13 (f + b) o) ∨
        (c ∈ symBlock CHR_IDX13 0 f ++ symBlock CHR_IDX13 (f + b) o ∧
         c ∉ symBlock CHR_IDX13 0 f ++ symBlock CHR_IDX13 f b)) := by
  have hpw26 : ascii_lowercase.Pairwise (· < ·) := by decide
  have hpw13 : CHR_IDX13.Pairwise (· < ·) := by decide
  constructor
  · intro f b o inp ker out bias h
    simp only [build_proj_equation] at h
    split at h
    next => exact absurd h (by simp)
    next l1 h1 =>
      split at h
      next => exact absurd h (by simp)
      next l2 h2 =>
        split at h
        next => exact absurd h (by simp)
        next l3 h3 =>
          simp only [Option.some.injEq, Prod.mk.injEq] at h
          obtain ⟨hinp, hker, hout, hbias⟩ := h
          obtain ⟨c1, rfl⟩ := blockChars_some ascii_lowercase f 0 l1 h1
          obtain ⟨c2, rfl⟩ := blockChars_some ascii_lowercase b f l2 h2
          obtain ⟨c3, rfl⟩ := blockChars_some ascii_lowercase o (f + b) l3 h3
          subst hinp hker hout
          refine ⟨rfl, rfl, rfl, ?_, ?_, ?_⟩
          · rw [blocks_eq_take]
            exact (hpw26.sublist (List.take_sublist _ _))
          · rw [List.length_append, symBlock_length _ _ _ c1,
              symBlock_length _ _ _ c3]
          · exact block_exclusive ascii_lowercase hpw26 f b o
  · intro f b o eq h
    simp only [build_einsum_string] at h
    split at h
    next => exact absurd h (by simp)
    next l1 h1 =>
      split at h
      next => exact absurd h (by simp)
      next l2 h2 =>
        split at h
        next => exact absurd h (by simp)
        next l3 h3 =>
          simp only [Option.some.injEq] at h
          obtain ⟨c1, rfl⟩ := blockChars_some CHR_IDX13 f 0 l1 h1
          obtain ⟨c2, rfl⟩ := blockChars_some CHR_IDX13 b f l2 h2
          obtain ⟨c3, rfl⟩ := blockChars_some CHR_IDX13 o (f + b) l3 h3
          subst h
          refine ⟨rfl, ?_, ?_, ?_⟩
          · rw [blocks_eq_take]
            exact (hpw13.sublist (List.take_sublist _ _))
          · rw [List.length_append, symBlock_length _ _ _ c1,
              symBlock_length _ _ _ c3]
          · exact block_exclusive CHR_IDX13 hpw13 f b o

/-- Concrete instantiation of C3: the projection equation at
free=bound=output=1 is "ab,bc->ac" and the einsum string at
free=2, bound=1, output=1 is "abc,cd->abd". -/
theorem C3_equation_blocks_witness :
    ((['a', 'b'] : List Char)
        = symBlock ascii_lowercase 0 1 ++ symBlock ascii_lowercase 1 1 ∧
      (['b', 'c'] : List Char)
        = symBlock ascii_lowercase 1 1 ++ symBlock ascii_lowercase (1 + 1) 1 ∧
      (['a', 'c'] : List Char)
        = symBlock ascii_lowercase 0 1 ++ symBlock ascii_lowercase (1 + 1) 1 ∧
      (symBlock ascii_lowercase 0 1 ++ (symBlock ascii_lowercase 1 1 ++
        symBlock ascii_lowercase (1 + 1) 1)).Pairwise (· < ·) ∧
      (['a', 'c'] : List Char).length = 1 + 1 ∧
      ∀ c ∈ (['b', 'c'] : List Char),
        (c ∈ (['a', 'b'] : List Char) ∧ c ∉ (['a', 'c'] : List Char)) ∨
        (c ∈ (['a', 'c'] : List Char) ∧ c ∉ (['a', 'b'] : List Char))) ∧
    ((['a', 'b', 'c', ',', 'c', 'd', '-', '>', 'a', 'b', 'd'] : List Char)
        = (symBlock CHR_IDX13 0 2 ++ symBlock CHR_IDX13 2 1) ++ [','] ++
          (symBlock CHR_IDX13 2 1 ++ symBlock CHR_IDX13 (2 + 1) 1) ++ ['-', '>'] ++
          (symBlock CHR_IDX13 0 2 ++ symBlock CHR_IDX13 (2 + 1) 1) ∧
      (symBlock CHR_IDX13 0 2 ++ (symBlock CHR_IDX13 2 1 ++
        symBlock CHR_IDX13 (2 + 1) 1)).Pairwise (· < ·) ∧
      (symBlock CHR_IDX13 0 2 ++ symBlock CHR_IDX13 (2 + 1) 1).length = 2 + 1 ∧
      ∀ c ∈ symBlock CHR_IDX13 2 1 ++ symBlock CHR_IDX13 (2 + 1) 1,
        (c ∈ symBlock CHR_IDX13 0 2 ++ symBlock CHR_IDX13 2 1 ∧
         c ∉ symBlock CHR_IDX13 0 2 ++ symBlock CHR_IDX13 (2 + 1) 1) ∨
        (c ∈ symBlock CHR_IDX13 0 2 ++ symBlock CHR_IDX13 (2 + 1) 1 ∧
         c ∉ symBlock CHR_IDX13 0 2 ++ symBlock CHR_IDX13 2 1)) :=
  ⟨C3_equation_blocks.1 1 1 1 ['a', 'b'] ['b', 'c'] ['a', 'c'] ['c'] (by decide),
   C3_equation_blocks.2 2 1 1 ['a', 'b', 'c', ',', 'c', 'd', '-', '>', 'a', 'b', 'd']
     (by decide)⟩

/-- Claim C4: when free + bound + output dims exceed the symbol alphabet, the
equation builders fail (IndexError at configuration/build time, modelled as
`none`) instead of returning an equation. -/
theorem C4_alphabet_overflow (f b o : Nat) :
    (26 < f + b + o → build_proj_equation f b o = none) ∧
    (13 < f + b + o → build_einsum_string f b o = none) := by
  constructor
  · intro hgt
    cases hres : build_proj_equation f b o with
    | none => rfl
    | some x =>
      exfalso
      simp only [build_proj_equation] at hres
      split at hres
      next => exact absurd hres (by simp)
      next l1 h1 =>
      split at hres
      next => exact absurd hres (by simp)
      next l2 h2 =>
      split at hres
      next => exact absurd hres (by simp)
      next l3 h3 =>
      have b1 := (blockChars_some ascii_lowercase f 0 l1 h1).1
      have b2 := (blockChars_some ascii_lowercase b f l2 h2).1
      have b3 := (blockChars_some ascii_lowercase o (f + b) l3 h3).1
      have hlen : ascii_lowercase.length = 26 := by decide
      rw [hlen] at b1 b2 b3
      have c1 : f = 0 ∨ f ≤ 26 := by
        rcases Nat.eq_zero_or_pos f with rfl | hf
        · exact Or.inl rfl
        · exact Or.inr (by simpa using b1 hf)
      have c2 : b = 0 ∨ f + b ≤ 26 := by
        rcases Nat.eq_zero_or_pos b with rfl | hb
        · exact Or.inl rfl
        · exact Or.inr (b2 hb)
      have c3 : o = 0 ∨ f + b + o ≤ 26 := by
        rcases Nat.eq_zero_or_pos o with rfl | ho
        · exact Or.inl rfl
        · exact Or.inr (b3 ho)
      rcases c1 with rfl | c1 <;> rcases c2 with rfl | c2 <;>
        rcases c3 with rfl | c3 <;> omega
  · intro hgt
    cases hres : build_einsum_string f b o with
    | none => rfl
    | some x =>
      exfalso
      simp only [build_einsum_string] at hres
      split at hres
      next => exact absurd hres (by simp)
      next l1 h1 =>
      split at hres
      next => exact absurd hres (by simp)
      next l2 h2 =>
      split at hres
      next => exact absurd hres (by simp)
      next l3 h3 =>
      have b1 := (blockChars_some CHR_IDX13 f 0 l1 h1).1
      have b2 := (blockChars_some CHR_IDX13 b f l2 h2).1
      have b3 := (blockChars_some CHR_IDX13 o (f + b) l3 h3).1
      have hlen : CHR_IDX13.length = 13 := by decide
      rw [hlen] at b1 b2 b3
      have c1 : f = 0 ∨ f ≤ 13 := by
        rcases Nat.eq_zero_or_pos f with rfl | hf
        · exact Or.inl rfl
        · exact Or.inr (by simpa using b1 hf)
      have c2 : b = 0 ∨ f + b ≤ 13 := by
        rcases Nat.eq_zero_or_pos b with rfl | hb
        · exact Or.inl rfl
        · exact Or.inr (b2 hb)
      have c3 : o = 0 ∨ f + b + o ≤ 13 := by
        rcases Nat.eq_zero_or_pos o with rfl | ho
        · exact Or.inl rfl
        · exact Or.inr (b3 ho)
      rcases c1 with rfl | c1 <;> rcases c2 with rfl | c2 <;>
        rcases c3 with rfl | c3 <;> omega

/-- Concrete instantiation of C4: 27 free dims overflow the 26-letter
alphabet of the projection builder, 14 free dims overflow the 13-letter
alphabet of the einsum-string builder. -/
theorem C4_alphabet_overflow_witness :
    build_proj_equation 27 0 0 = none ∧ build_einsum_string 14 0 0 = none :=
  ⟨(C4_alphabet_overflow 27 0 0).1 (by decide),
   (C4_alphabet_overflow 14 0 0).2 (by decide)⟩

/-- Claim C5: after the mask is broadcast-expanded to the scores' rank, the
pre-normalization transform of MaskedSoftmax adds exactly -10000 to the score
at every position whose (expanded) mask value is 0, and leaves the score
unchanged at every position whose mask value is 1. -/
theorem C5_mask_penalty (scores mask : List Nat → ℚ) (axis rank_diff : Nat)
    (idx : List Nat) :
    (expandMask mask axis rank_diff idx = 0 →
      masked_softmax_pre scores mask axis rank_diff idx = scores idx - 10000) ∧
    (expandMask mask axis rank_diff idx = 1 →
      masked_softmax_pre scores mask axis rank_diff idx = scores idx) := by
  constructor <;> intro h <;> simp only [masked_softmax_pre, h] <;> ring

/-- A concrete rank-1 mask: position [0] is padding (0), others are real (1). -/
def mask0 : List Nat → ℚ := fun idx => if idx = [0] then 0 else 1

/-- A concrete constant score tensor. -/
def scores0 : List Nat → ℚ := fun _ => 3

/-- Concrete instantiation of C5: with the mask expanded once at axis 1, the
masked position [0, 5] is penalized by exactly -10000 and the unmasked
position [1, 5] is unchanged. -/
theorem C5_mask_penalty_witness :
    masked_softmax_pre scores0 mask0 1 1 [0, 5] = scores0 [0, 5] - 10000 ∧
    masked_softmax_pre scores0 mask0 1 1 [1, 5] = scores0 [1, 5] :=
  ⟨(C5_mask_penalty scores0 mask0 1 1 [0, 5]).1 (by decide),
   (C5_mask_penalty scores0 mask0 1 1 [1, 5]).2 (by decide)⟩

/-- Claim C8: per input sentence, the encoded row is the class-token id
followed by the sub-word ids and the separator-token id, truncated to the
first `max_sequence_length` ids; in particular when the sub-word count plus 2
exceeds the maximum, the row has exactly the maximum length. -/
theorem C8_encode_truncation (tokToId : String → Nat) (max_sequence_length : Nat)
    (tokens : List String) :
    bert_encode_row tokToId max_sequence_length tokens
      = (tokToId "[CLS]" :: (tokens.map tokToId ++ [tokToId "[SEP]"])).take
          max_sequence_length ∧
    (max_sequence_length < tokens.length + 2 →
      (bert_encode_row tokToId max_sequence_length tokens).length
        = max_sequence_length) := by
  have hfirst : bert_encode_row tokToId max_sequence_length tokens
      = (tokToId "[CLS]" :: (tokens.map tokToId ++ [tokToId "[SEP]"])).take
          max_sequence_length := by
    simp only [bert_encode_row, encode_sentence, List.map_append, List.map_cons,
      List.map_nil]
    split
    next h => rfl
    next h =>
      rw [List.take_of_length_le (Nat.le_of_not_lt h)]
  refine ⟨hfirst, fun h => ?_⟩
  rw [hfirst]
  simp only [List.length_take, List.length_cons, List.length_append,
    List.length_map, List.length_singleton]
  omega

/-- Concrete instantiation of C8: two sub-words with maximum length 3 give a
front-truncated row of exactly 3 ids. -/
theorem C8_encode_truncation_witness :
    (bert_encode_row (fun s => s.length) 3 ["aa", "bb"]).length = 3 :=
  (C8_encode_truncation (fun s => s.length) 3 ["aa", "bb"]).2 (by decide)

/-- Claim C9: for ids within the vocabulary range, the one-hot
strategy of OnDeviceEmbedding produces exactly the same output as the
direct-gather strategy on the same inputs and weights. -/
theorem C9_one_hot_gather (vocab_size embedding_width : Nat)
    (embeddings : Nat → Nat → ℚ) (flat_inputs : List Nat)
    (h : ∀ id ∈ flat_inputs, id < vocab_size) :
    OnDeviceEmbedding_call true vocab_size embedding_width embeddings flat_inputs
      = OnDeviceEmbedding_call false vocab_size embedding_width embeddings
          flat_inputs := by
  simp only [OnDeviceEmbedding_call, if_true, Bool.false_eq_true, if_false]
  apply List.map_congr_left
  intro id hid
  apply List.map_congr_left
  intro k _
  unfold one_hot_matmul
  have hcong : ∀ j ∈ Finset.range vocab_size,
      (if j = id then (1 : ℚ) else 0) * embeddings j k
        = if j = id then embeddings j k else 0 := by
    intro j _
    split <;> simp
  rw [Finset.sum_congr rfl hcong,
    Finset.sum_ite_eq' (Finset.range vocab_size) id (fun j => embeddings j k),
    if_pos (Finset.mem_range.mpr (h id hid))]

/-- A concrete 2-row embedding table. -/
def embTable : Nat → Nat → ℚ := fun j k => (j : ℚ) + (k : ℚ)

/-- Concrete instantiation of C9: vocabulary size 2, width 1, ids [0, 1]. -/
theorem C9_one_hot_gather_witness :
    OnDeviceEmbedding_call true 2 1 embTable [0, 1]
      = OnDeviceEmbedding_call false 2 1 embTable [0, 1] :=
  C9_one_hot_gather 2 1 embTable [0, 1] (by decide)

end AK
